import Mathlib

/-!
Shallow embedding of the decision core of the airline cargo expert system
(`airline_expert_system_gui.py`): the availability predicate
`flight_available`, the candidate filter, the ranking by
`(surplus, carbon_footprint)` and the decision function `find_flight`.

Numeric weights and costs are modelled as integers (the scenarios and
comparisons of interest are integral); the evaluation instant that the
source reads from the wall clock inside `flight_available` is passed as an
explicit `Time` state parameter, held constant across one evaluation.
-/

namespace Airline

/-- An instant: a calendar-day index and microseconds since midnight.
Instants compare lexicographically (day first). -/
structure Time where
  day : Nat
  usec : Nat
  deriving DecidableEq, Repr

/-- Strict order on instants: earlier day, or same day and earlier
microsecond. -/
def Time.lt (a b : Time) : Prop :=
  a.day < b.day ∨ (a.day = b.day ∧ a.usec < b.usec)

instance (a b : Time) : Decidable (Time.lt a b) :=
  inferInstanceAs (Decidable (_ ∨ _))

/-- A flight rule record, with the fields the source dictionaries carry. -/
structure Rule where
  flight : String
  destination : String
  max_weight : Int
  airport_code : String
  departure_time : String
  carbon_footprint : Int
  deriving DecidableEq, Repr

/-- Digit string to value: `some` iff the characters are a nonempty run of
decimal digits. -/
def digitsToNat (cs : List Char) : Option Nat :=
  if cs ≠ [] ∧ cs.all Char.isDigit then
    some (cs.foldl (fun n c => n * 10 + (c.toNat - 48)) 0)
  else none

/-- Split a character list at its unique colon; `none` when there is no
colon or more than one. -/
def breakColon : List Char → Option (List Char × List Char)
  | [] => none
  | c :: cs =>
    if c = ':' then
      if cs.contains ':' then none else some ([], cs)
    else
      match breakColon cs with
      | some (l, r) => some (c :: l, r)
      | none => none

/-- Parse of `strptime(s, "%H:%M")`: one or two digits for the hour
(0–23), a colon, one or two digits for the minute (0–59), nothing else. -/
def parseHM (s : String) : Option (Nat × Nat) :=
  match breakColon s.data with
  | none => none
  | some (hs, ms) =>
    match digitsToNat hs, digitsToNat ms with
    | some h, some m =>
      if hs.length ≤ 2 ∧ ms.length ≤ 2 ∧ h ≤ 23 ∧ m ≤ 59 then some (h, m)
      else none
    | _, _ => none

/-- Microsecond-of-day of a departure at hour `h`, minute `m`. -/
def depMicros (h m : Nat) : Nat :=
  ((h * 60 + m) * 60) * 1000000

/-- `flight_available(rule)`: parse the departure time, place it on the
calendar date of `now`, and require `now < dep`; any parse failure is
caught and yields `false`. -/
def flight_available (rule : Rule) (now : Time) : Bool :=
  match parseHM rule.departure_time with
  | some (h, m) => decide (Time.lt now ⟨now.day, depMicros h m⟩)
  | none => false

/-- Case-folded character list of a string (ASCII case folding, as in the
destination comparison `rule["destination"].lower() == destination.lower()`). -/
def lowerStr (s : String) : List Char :=
  s.data.map Char.toLower

/-- The filter condition of the loop in `find_flight`: destination matches
case-insensitively, the cargo fits, and the flight is still available. -/
def rule_matches (rule : Rule) (cargo_weight : Int) (destination : String)
    (now : Time) : Bool :=
  (lowerStr rule.destination == lowerStr destination)
    && decide (cargo_weight ≤ rule.max_weight)
    && flight_available rule now

/-- The candidate-building loop of `find_flight`: each surviving rule is
paired with its surplus `max_weight - cargo_weight`, in input order. -/
def candidates (rules : List Rule) (cargo_weight : Int) (destination : String)
    (now : Time) : List (Rule × Int) :=
  match rules with
  | [] => []
  | r :: rs =>
    if rule_matches r cargo_weight destination now then
      (r, r.max_weight - cargo_weight) :: candidates rs cargo_weight destination now
    else
      candidates rs cargo_weight destination now

/-- The sort key of `candidates.sort(key=lambda x: (x[1], x[0]["carbon_footprint"]))`. -/
def keyOf (c : Rule × Int) : Int × Int :=
  (c.2, c.1.carbon_footprint)

/-- Lexicographic comparison of sort keys, as Python compares the key
tuples. -/
def keyLe (a b : Rule × Int) : Prop :=
  (keyOf a).1 < (keyOf b).1 ∨ ((keyOf a).1 = (keyOf b).1 ∧ (keyOf a).2 ≤ (keyOf b).2)

instance : DecidableRel keyLe :=
  fun a b =>
    inferInstanceAs
      (Decidable ((keyOf a).1 < (keyOf b).1 ∨
        ((keyOf a).1 = (keyOf b).1 ∧ (keyOf a).2 ≤ (keyOf b).2)))

instance : IsTotal (Rule × Int) keyLe where
  total := by
    intro a b
    unfold keyLe
    omega

instance : IsTrans (Rule × Int) keyLe where
  trans := by
    intro a b c hab hbc
    unfold keyLe at *
    omega

/-- The stable sort of the candidate list by `(surplus, carbon_footprint)`. -/
def rank (cands : List (Rule × Int)) : List (Rule × Int) :=
  List.insertionSort keyLe cands

/-- The no-match message of `find_flight`. -/
def noMatchMsg : String :=
  "No available flight for the given cargo and destination."

/-- The explanation string built for the selected flight. -/
def explanation (best : Rule) (surplus : Int) : String :=
  "Flight " ++ best.flight ++ " selected: surplus capacity " ++ toString surplus
    ++ " kg, carbon footprint " ++ toString best.carbon_footprint

/-- `find_flight(rules, cargo_weight, destination)`: filter, sort by
`(surplus, carbon_footprint)`, return the first candidate with its
explanation, or `None` with the no-match message when no candidate
survives. -/
def find_flight (rules : List Rule) (cargo_weight : Int) (destination : String)
    (now : Time) : Option Rule × String :=
  match rank (candidates rules cargo_weight destination now) with
  | [] => (none, noMatchMsg)
  | (best, surplus) :: _ => (some best, explanation best surplus)

/-! Concrete records used to exercise the theorems, following the spec's
scenarios. -/

/-- Midnight on an arbitrary day: every well-formed departure later than
00:00 is still available. -/
def demoNow : Time := ⟨738000, 0⟩

def ruleF1 : Rule := ⟨"F1", "Paris", 500, "CDG", "23:59", 10⟩

def ruleF2 : Rule := ⟨"F2", "Paris", 480, "CDG", "23:59", 5⟩

def demoRules : List Rule := [ruleF1, ruleF2]

def ruleT8 : Rule := ⟨"T8", "Rome", 500, "FCO", "10:00", 8⟩

def ruleT3 : Rule := ⟨"T3", "Rome", 500, "FCO", "10:00", 3⟩

def tieRules : List Rule := [ruleT8, ruleT3]

def ruleBad : Rule := ⟨"B1", "Oslo", 400, "OSL", "late", 4⟩

/-- An instant whose microsecond-of-day is exactly the 10:00 departure of
`ruleT3`: the boundary case of availability. -/
def boundaryNow : Time := ⟨738000, depMicros 10 0⟩

/-! Helper lemmas about the ranking and the candidate list. -/

lemma keyLe_refl (a : Rule × Int) : keyLe a a := by
  unfold keyLe
  omega

lemma rank_perm (l : List (Rule × Int)) : List.Perm (rank l) l :=
  List.perm_insertionSort keyLe l

lemma mem_rank {c : Rule × Int} {l : List (Rule × Int)} : c ∈ rank l ↔ c ∈ l :=
  (rank_perm l).mem_iff

lemma rank_eq_nil_iff {l : List (Rule × Int)} : rank l = [] ↔ l = [] := by
  constructor
  · intro h
    exact ((h ▸ rank_perm l).symm).eq_nil
  · intro h
    subst h
    rfl

lemma candidates_eq_filter_map (w : Int) (d : String) (now : Time) :
    ∀ rules : List Rule,
      candidates rules w d now =
        (rules.filter (fun r => rule_matches r w d now)).map
          (fun r => (r, r.max_weight - w)) := by
  intro rules
  induction rules with
  | nil => rfl
  | cons q rs ih =>
    by_cases hq : rule_matches q w d now = true
    · simp [candidates, List.filter_cons, hq, ih]
    · simp [candidates, List.filter_cons, hq, ih]

lemma mem_candidates {w : Int} {d : String} {now : Time} {rules : List Rule}
    {r : Rule} {s : Int} :
    (r, s) ∈ candidates rules w d now ↔
      r ∈ rules ∧ rule_matches r w d now = true ∧ s = r.max_weight - w := by
  rw [candidates_eq_filter_map]
  simp only [List.mem_map, List.mem_filter, Prod.mk.injEq]
  constructor
  · rintro ⟨q, ⟨hq, hm⟩, rfl, rfl⟩
    exact ⟨hq, hm, rfl⟩
  · rintro ⟨hr, hm, rfl⟩
    exact ⟨r, ⟨hr, hm⟩, rfl, rfl⟩

lemma rule_matches_iff {r : Rule} {w : Int} {d : String} {now : Time} :
    rule_matches r w d now = true ↔
      lowerStr r.destination = lowerStr d ∧ w ≤ r.max_weight ∧
        flight_available r now = true := by
  unfold rule_matches
  simp [Bool.and_eq_true, beq_iff_eq, and_assoc]

lemma find_flight_selected {rules : List Rule} {w : Int} {d : String} {now : Time}
    (h : candidates rules w d now ≠ []) :
    ∃ best surplus rest,
      rank (candidates rules w d now) = (best, surplus) :: rest ∧
      find_flight rules w d now = (some best, explanation best surplus) ∧
      (best, surplus) ∈ candidates rules w d now ∧
      ∀ c ∈ candidates rules w d now, keyLe (best, surplus) c := by
  cases hL : rank (candidates rules w d now) with
  | nil => exact absurd (rank_eq_nil_iff.mp hL) h
  | cons c0 cs =>
    obtain ⟨best, surplus⟩ := c0
    refine ⟨best, surplus, cs, rfl, ?_, ?_, ?_⟩
    · unfold find_flight
      rw [hL]
    · have hmem : (best, surplus) ∈ rank (candidates rules w d now) := by
        rw [hL]; exact List.mem_cons_self _ _
      exact mem_rank.mp hmem
    · intro c hc
      have hsorted : List.Sorted keyLe (rank (candidates rules w d now)) :=
        List.sorted_insertionSort keyLe _
      have hc' : c ∈ rank (candidates rules w d now) := mem_rank.mpr hc
      rw [hL] at hc' hsorted
      rcases List.mem_cons.mp hc' with rfl | hmem
      · exact keyLe_refl _
      · exact List.rel_of_sorted_cons hsorted _ hmem

lemma find_flight_none_iff (rules : List Rule) (w : Int) (d : String) (now : Time) :
    find_flight rules w d now = (none, noMatchMsg) ↔
      candidates rules w d now = [] := by
  constructor
  · intro h
    by_contra hne
    obtain ⟨b, s, rest, _, hff, _, _⟩ := find_flight_selected hne
    rw [hff] at h
    simp at h
  · intro h
    unfold find_flight
    rw [h]
    rfl

lemma filter_orderedInsert_keyEq (k : Int × Int) (a : Rule × Int) :
    ∀ l : List (Rule × Int),
      (List.orderedInsert keyLe a l).filter (fun c => decide (keyOf c = k)) =
        if keyOf a = k then
          a :: l.filter (fun c => decide (keyOf c = k))
        else
          l.filter (fun c => decide (keyOf c = k)) := by
  intro l
  induction l with
  | nil =>
    by_cases ha : keyOf a = k <;> simp [ha]
  | cons b t ih =>
    by_cases hab : keyLe a b
    · by_cases ha : keyOf a = k <;>
        simp [List.orderedInsert, hab, List.filter_cons, ha]
    · have hd : List.orderedInsert keyLe a (b :: t) = b :: List.orderedInsert keyLe a t := by
        simp [List.orderedInsert, hab]
      by_cases ha : keyOf a = k
      · have hbk : ¬keyOf b = k := by
          intro hbk
          exact hab (by unfold keyLe; rw [ha, hbk]; omega)
        simp [hd, hab, List.filter_cons, ih, ha, hbk]
      · simp [hd, hab, List.filter_cons, ih, ha]

lemma filter_rank_keyEq (k : Int × Int) :
    ∀ l : List (Rule × Int),
      (rank l).filter (fun c => decide (keyOf c = k)) =
        l.filter (fun c => decide (keyOf c = k)) := by
  intro l
  induction l with
  | nil => rfl
  | cons a t ih =>
    show (List.orderedInsert keyLe a (rank t)).filter _ = _
    rw [filter_orderedInsert_keyEq]
    by_cases h : keyOf a = k
    · simp [h, ih, List.filter_cons]
    · simp [h, ih, List.filter_cons]

lemma rank_idem (l : List (Rule × Int)) : rank (rank l) = rank l :=
  (List.sorted_insertionSort keyLe l).insertionSort_eq

lemma rule_matches_antitone {r : Rule} {d : String} {now : Time} {w1 w2 : Int}
    (h : w1 ≤ w2) (hm : rule_matches r w2 d now = true) :
    rule_matches r w1 d now = true := by
  rw [rule_matches_iff] at hm ⊢
  exact ⟨hm.1, le_trans h hm.2.1, hm.2.2⟩

/-! The claims. -/

/-- C1: whenever at least one candidate survives filtering, `find_flight`
returns the head of the ranked list, a candidate whose key
`(surplus, carbon_footprint)` is lexicographically minimal: no candidate
has a strictly smaller surplus, and no candidate with equal surplus has a
strictly smaller carbon footprint. -/
theorem find_flight_selects_lex_min (rules : List Rule) (w : Int) (d : String)
    (now : Time) (h : candidates rules w d now ≠ []) :
    ∃ best surplus rest,
      rank (candidates rules w d now) = (best, surplus) :: rest ∧
      find_flight rules w d now = (some best, explanation best surplus) ∧
      (best, surplus) ∈ candidates rules w d now ∧
      ∀ c ∈ candidates rules w d now,
        surplus ≤ c.2 ∧
          (c.2 = surplus → best.carbon_footprint ≤ c.1.carbon_footprint) := by
  obtain ⟨best, surplus, rest, h1, h2, h3, h4⟩ := find_flight_selected h
  refine ⟨best, surplus, rest, h1, h2, h3, ?_⟩
  intro c hc
  have hk := h4 c hc
  simp only [keyLe, keyOf] at hk
  exact ⟨by omega, fun hce => by omega⟩

/-- Non-vacuity of C1 at the tie scenario: two Rome rules with equal
surplus and carbon footprints 8 and 3. -/
theorem find_flight_selects_lex_min_witness :
    candidates tieRules 480 "Rome" demoNow ≠ [] ∧
    (∃ best surplus rest,
      rank (candidates tieRules 480 "Rome" demoNow) = (best, surplus) :: rest ∧
      find_flight tieRules 480 "Rome" demoNow = (some best, explanation best surplus) ∧
      (best, surplus) ∈ candidates tieRules 480 "Rome" demoNow ∧
      ∀ c ∈ candidates tieRules 480 "Rome" demoNow,
        surplus ≤ c.2 ∧
          (c.2 = surplus → best.carbon_footprint ≤ c.1.carbon_footprint)) :=
  ⟨by decide, find_flight_selects_lex_min tieRules 480 "Rome" demoNow (by decide)⟩

/-- C2 counterexample: a query with weight −5 is not rejected; it is
answered with the ordinary no-match result. -/
theorem negative_weight_answered_noMatch :
    find_flight demoRules (-5) "Atlantis" demoNow = (none, noMatchMsg) := by
  decide

/-- C2 amended: the engine performs no validity check on the query; a
negative-weight query flows through filtering like any other and yields
the ordinary no-match result exactly when no candidate survives, and an
ordinary selection otherwise. -/
theorem negative_weight_not_rejected (rules : List Rule) (d : String)
    (now : Time) (w : Int) (_hw : w < 0) :
    (find_flight rules w d now = (none, noMatchMsg) ↔
      candidates rules w d now = []) ∧
    (candidates rules w d now ≠ [] →
      ∃ best surplus rest,
        rank (candidates rules w d now) = (best, surplus) :: rest ∧
        find_flight rules w d now = (some best, explanation best surplus)) := by
  refine ⟨find_flight_none_iff rules w d now, ?_⟩
  intro h
  obtain ⟨b, s, rest, h1, h2, _, _⟩ := find_flight_selected h
  exact ⟨b, s, rest, h1, h2⟩

/-- Non-vacuity of the amended C2 at weight −5. -/
theorem negative_weight_not_rejected_witness :
    (-5 : Int) < 0 ∧
    ((find_flight demoRules (-5) "Paris" demoNow = (none, noMatchMsg) ↔
       candidates demoRules (-5) "Paris" demoNow = []) ∧
     (candidates demoRules (-5) "Paris" demoNow ≠ [] →
       ∃ best surplus rest,
         rank (candidates demoRules (-5) "Paris" demoNow) = (best, surplus) :: rest ∧
         find_flight demoRules (-5) "Paris" demoNow =
           (some best, explanation best surplus))) :=
  ⟨by decide, negative_weight_not_rejected demoRules "Paris" demoNow (-5) (by decide)⟩

/-- C3: a rule becomes a candidate exactly when its destination matches
case-insensitively, the cargo weight fits its capacity, and it is
available at the instant; the candidate list is the order-preserving
filter of the rule list, each rule paired with its surplus. -/
theorem candidates_filter_spec (rules : List Rule) (w : Int) (d : String)
    (now : Time) :
    candidates rules w d now =
      (rules.filter (fun r => rule_matches r w d now)).map
        (fun r => (r, r.max_weight - w)) ∧
    ((candidates rules w d now).map Prod.fst).Sublist rules ∧
    ∀ r s, (r, s) ∈ candidates rules w d now ↔
      (r ∈ rules ∧ lowerStr r.destination = lowerStr d ∧ w ≤ r.max_weight ∧
        flight_available r now = true ∧ s = r.max_weight - w) := by
  refine ⟨candidates_eq_filter_map w d now rules, ?_, ?_⟩
  · rw [candidates_eq_filter_map]
    have hmap : ∀ l : List Rule,
        (l.map (fun r => (r, r.max_weight - w))).map Prod.fst = l := by
      intro l
      induction l with
      | nil => rfl
      | cons a t ih => simp [ih]
    rw [hmap]
    exact List.filter_sublist _
  · intro r s
    rw [mem_candidates, rule_matches_iff]
    tauto

/-- Concrete instance of C3 at the Paris scenario. -/
theorem candidates_filter_spec_witness :
    candidates demoRules 450 "Paris" demoNow =
      (demoRules.filter (fun r => rule_matches r 450 "Paris" demoNow)).map
        (fun r => (r, r.max_weight - 450)) :=
  (candidates_filter_spec demoRules 450 "Paris" demoNow).1

/-- C4: for a rule whose departure time parses as `(h, m)`, availability
holds exactly when the instant `(now.day, h:m)` is strictly later than
`now`; at exact equality the rule is unavailable. -/
theorem flight_available_iff_departure_later (r : Rule) (now : Time)
    (h m : Nat) (hp : parseHM r.departure_time = some (h, m)) :
    (flight_available r now = true ↔
      Time.lt now ⟨now.day, depMicros h m⟩) ∧
    (now.usec = depMicros h m → flight_available r now = false) := by
  have hfa : flight_available r now =
      decide (Time.lt now ⟨now.day, depMicros h m⟩) := by
    unfold flight_available
    rw [hp]
  rw [hfa]
  refine ⟨by simp, fun he => ?_⟩
  simp only [decide_eq_false_iff_not, Time.lt]
  omega

/-- Non-vacuity of C4 at the exact-boundary instant of a 10:00 departure:
the rule is unavailable. -/
theorem flight_available_iff_departure_later_witness :
    parseHM ruleT3.departure_time = some (10, 0) ∧
    boundaryNow.usec = depMicros 10 0 ∧
    flight_available ruleT3 boundaryNow = false :=
  ⟨by decide, rfl,
    (flight_available_iff_departure_later ruleT3 boundaryNow 10 0 (by decide)).2 rfl⟩

/-- C5: a rule whose departure time fails to parse is unavailable, and its
presence anywhere in the rule list leaves the candidate list of the
remaining rules unchanged. -/
theorem malformed_departure_fails_closed (r : Rule) (now : Time)
    (hp : parseHM r.departure_time = none) :
    flight_available r now = false ∧
    ∀ (l1 l2 : List Rule) (w : Int) (d : String),
      candidates (l1 ++ r :: l2) w d now = candidates (l1 ++ l2) w d now := by
  have hfa : flight_available r now = false := by
    unfold flight_available
    rw [hp]
  refine ⟨hfa, ?_⟩
  intro l1 l2 w d
  induction l1 with
  | nil =>
    simp only [List.nil_append]
    have hm : rule_matches r w d now = false := by
      unfold rule_matches
      rw [hfa]
      simp
    simp [candidates, hm]
  | cons q qs ih =>
    simp only [List.cons_append, candidates, List.append_eq]
    rw [ih]

/-- Non-vacuity of C5 at the rule with departure time "late". -/
theorem malformed_departure_fails_closed_witness :
    parseHM ruleBad.departure_time = none ∧
    flight_available ruleBad demoNow = false ∧
    candidates ([ruleF1] ++ ruleBad :: [ruleF2]) 450 "Paris" demoNow =
      candidates ([ruleF1] ++ [ruleF2]) 450 "Paris" demoNow :=
  ⟨by decide, (malformed_departure_fails_closed ruleBad demoNow (by decide)).1,
    (malformed_departure_fails_closed ruleBad demoNow (by decide)).2
      [ruleF1] [ruleF2] 450 "Paris"⟩

/-- C6: the engine returns the no-match result exactly when no candidate
survives filtering; otherwise it returns the best-ranked candidate with
its explanation; in particular a weight above every capacity yields the
no-match result. -/
theorem find_flight_noMatch_iff_no_candidates (rules : List Rule) (w : Int)
    (d : String) (now : Time) :
    (find_flight rules w d now = (none, noMatchMsg) ↔
      candidates rules w d now = []) ∧
    (candidates rules w d now ≠ [] →
      ∃ best surplus rest,
        rank (candidates rules w d now) = (best, surplus) :: rest ∧
        find_flight rules w d now = (some best, explanation best surplus)) ∧
    ((∀ r ∈ rules, r.max_weight < w) →
      find_flight rules w d now = (none, noMatchMsg)) := by
  refine ⟨find_flight_none_iff rules w d now, ?_, ?_⟩
  · intro h
    obtain ⟨b, s, rest, h1, h2, _, _⟩ := find_flight_selected h
    exact ⟨b, s, rest, h1, h2⟩
  · intro hcap
    rw [find_flight_none_iff]
    by_contra hne
    obtain ⟨c, hc⟩ := List.exists_mem_of_ne_nil _ hne
    obtain ⟨r2, s2⟩ := c
    rw [mem_candidates] at hc
    have hle := (rule_matches_iff.mp hc.2.1).2.1
    have hlt := hcap r2 hc.1
    omega

/-- Non-vacuity of C6: weight 600 exceeds both Paris capacities, so the
no-match result is returned. -/
theorem find_flight_noMatch_iff_no_candidates_witness :
    find_flight demoRules 600 "Paris" demoNow = (none, noMatchMsg) :=
  (find_flight_noMatch_iff_no_candidates demoRules 600 "Paris" demoNow).2.2
    (by decide)

/-- C7: for a non-negative query weight, every candidate carries the
surplus `max_weight - w`, which is non-negative, and the rule returned by
a selection is such a candidate, its explanation built from that
surplus. -/
theorem surplus_nonneg_eq (rules : List Rule) (w : Int) (d : String)
    (now : Time) (_hw : 0 ≤ w) :
    (∀ r s, (r, s) ∈ candidates rules w d now →
      s = r.max_weight - w ∧ 0 ≤ s) ∧
    (∀ best e, find_flight rules w d now = (some best, e) →
      ∃ s, (best, s) ∈ candidates rules w d now ∧ s = best.max_weight - w ∧
        0 ≤ s ∧ e = explanation best s) := by
  have hmem : ∀ r s, (r, s) ∈ candidates rules w d now →
      s = r.max_weight - w ∧ 0 ≤ s := by
    intro r s hm
    rw [mem_candidates] at hm
    obtain ⟨hr, hmatch, hs⟩ := hm
    have hle := (rule_matches_iff.mp hmatch).2.1
    exact ⟨hs, by omega⟩
  refine ⟨hmem, ?_⟩
  intro best e hf
  by_cases hne : candidates rules w d now = []
  · have hnm := (find_flight_none_iff rules w d now).mpr hne
    rw [hnm] at hf
    simp at hf
  · obtain ⟨b, s, rest, h1, h2, h3, _⟩ := find_flight_selected hne
    rw [h2, Prod.mk.injEq] at hf
    obtain ⟨hb, he⟩ := hf
    have hbb := Option.some.inj hb
    subst hbb
    have hms := hmem b s h3
    exact ⟨s, h3, hms.1, hms.2, he.symm⟩

/-- Non-vacuity of C7 at the Paris scenario with weight 450. -/
theorem surplus_nonneg_eq_witness :
    (0 : Int) ≤ 450 ∧
    (∀ r s, (r, s) ∈ candidates demoRules 450 "Paris" demoNow →
      s = r.max_weight - 450 ∧ 0 ≤ s) :=
  ⟨by decide, (surplus_nonneg_eq demoRules 450 "Paris" demoNow (by decide)).1⟩

/-- C8: ranking is stable — for every key value, the sublist of candidates
carrying exactly that `(surplus, carbon_footprint)` key is unchanged by
the sort — and idempotent: re-ranking a ranked list leaves it fixed. -/
theorem rank_stable_idempotent (l : List (Rule × Int)) :
    (∀ k : Int × Int,
      (rank l).filter (fun c => decide (keyOf c = k)) =
        l.filter (fun c => decide (keyOf c = k))) ∧
    rank (rank l) = rank l :=
  ⟨fun k => filter_rank_keyEq k l, rank_idem l⟩

/-- Concrete instance of C8 on the tied Rome candidates. -/
theorem rank_stable_idempotent_witness :
    rank (rank (candidates tieRules 480 "Rome" demoNow)) =
      rank (candidates tieRules 480 "Rome" demoNow) :=
  (rank_stable_idempotent (candidates tieRules 480 "Rome" demoNow)).2

/-- C9: evaluation is deterministic — equal rule lists, weights,
destinations and evaluation instants give equal results; the instant is an
explicit input of the embedded evaluation. -/
theorem find_flight_deterministic (rules1 rules2 : List Rule) (w1 w2 : Int)
    (d1 d2 : String) (now1 now2 : Time) (hr : rules1 = rules2) (hw : w1 = w2)
    (hd : d1 = d2) (hn : now1 = now2) :
    find_flight rules1 w1 d1 now1 = find_flight rules2 w2 d2 now2 := by
  subst hr
  subst hw
  subst hd
  subst hn
  rfl

/-- Non-vacuity of C9 at a concrete evaluation. -/
theorem find_flight_deterministic_witness :
    demoRules = demoRules ∧
    find_flight demoRules 450 "Paris" demoNow =
      find_flight demoRules 450 "Paris" demoNow :=
  ⟨rfl, find_flight_deterministic demoRules demoRules 450 450 "Paris" "Paris"
    demoNow demoNow rfl rfl rfl rfl⟩

/-- C10: the candidate set is antitone in the requested weight: a rule
matching at the larger weight matches at the smaller, candidates transfer
downward, and a no-match at the smaller weight forces a no-match at the
larger. -/
theorem candidates_antitone_weight (rules : List Rule) (d : String)
    (now : Time) (w1 w2 : Int) (_h0 : 0 ≤ w1) (h12 : w1 ≤ w2) :
    (∀ r, rule_matches r w2 d now = true → rule_matches r w1 d now = true) ∧
    (∀ r s, (r, s) ∈ candidates rules w2 d now →
      (r, r.max_weight - w1) ∈ candidates rules w1 d now) ∧
    (find_flight rules w1 d now = (none, noMatchMsg) →
      find_flight rules w2 d now = (none, noMatchMsg)) := by
  have hmono : ∀ r, rule_matches r w2 d now = true →
      rule_matches r w1 d now = true :=
    fun r hm => rule_matches_antitone h12 hm
  have hcand : ∀ r s, (r, s) ∈ candidates rules w2 d now →
      (r, r.max_weight - w1) ∈ candidates rules w1 d now := by
    intro r s hm
    rw [mem_candidates] at hm ⊢
    exact ⟨hm.1, hmono r hm.2.1, rfl⟩
  refine ⟨hmono, hcand, ?_⟩
  intro h1
  rw [find_flight_none_iff] at h1 ⊢
  by_contra hne
  obtain ⟨c, hc⟩ := List.exists_mem_of_ne_nil _ hne
  obtain ⟨r2, s2⟩ := c
  have hmem2 := hcand r2 s2 hc
  rw [h1] at hmem2
  exact absurd hmem2 (List.not_mem_nil _)

/-- Non-vacuity of C10 between weights 450 and 600. -/
theorem candidates_antitone_weight_witness :
    (0 : Int) ≤ 450 ∧ (450 : Int) ≤ 600 ∧
    (find_flight demoRules 450 "Paris" demoNow = (none, noMatchMsg) →
      find_flight demoRules 600 "Paris" demoNow = (none, noMatchMsg)) :=
  ⟨by decide, by decide,
    (candidates_antitone_weight demoRules "Paris" demoNow 450 600
      (by decide) (by decide)).2.2⟩

end Airline
